import Mathlib

/-!
Verification of the forklift-route-optimizer engine (contextual Thompson
sampling with a softmax selection layer and a sliding observation window).

The Python class ForkliftRouteOptimizer is embedded shallowly:
  - Python dicts keyed by a context pair become functions K → Option _;
  - the per-context Beta-parameter dict (an insertion-ordered dict keyed by
    integer routes) becomes an association list List (ℤ × ℤ × ℤ);
  - deque(maxlen=memory) becomes a list kept to its last memory elements;
  - a raised exception (ValueError at construction, KeyError inside
    _recompute_betas) becomes an Except.error result.  Because Python
    mutates the object in place even when _recompute_betas raises, update
    returns the post-call state together with the Except value;
  - the two random draws inside select_route (Beta posterior samples and
    np.random.choice over the softmax weights) are abstracted by an
    arbitrary index into the key list: every softmax weight is strictly
    positive, so exactly the elements of the key list are possible results;
  - np.float arithmetic in softmax is embedded over ℝ.
-/

namespace ForkliftRouteOptimizer

/-- Lookup in an association list keyed by integer routes, mirroring a
Python dict read counts[route] (first matching key wins). -/
def lookupRoute {α : Type} : List (ℤ × α) → ℤ → Option α
  | [], _ => none
  | (k, v) :: rest, r => if k = r then some v else lookupRoute rest r

/-- In-place overwrite of the value at an existing key, mirroring the
mutation counts[route] = new performed by _recompute_betas.  A missing key
leaves the list unchanged (that branch is never reached: the code raises
KeyError on the preceding read). -/
def setRoute {α : Type} : List (ℤ × α) → ℤ → α → List (ℤ × α)
  | [], _, _ => []
  | (k, v) :: rest, r, x =>
      if k = r then (k, x) :: rest else (k, v) :: setRoute rest r x

/-- The integer list a, a+1, ..., a+n-1, mirroring Python range iteration
order. -/
def rangeRoutes (a : ℤ) : ℕ → List ℤ
  | 0 => []
  | n + 1 => a :: rangeRoutes (a + 1) n

/-- The dict comprehension initializing every route of
range(route_min, route_max + 1) at the Beta(1,1) prior. -/
def initBetas (rmin rmax : ℤ) : List (ℤ × ℤ × ℤ) :=
  (rangeRoutes rmin ((rmax + 1 - rmin).toNat)).map (fun r => (r, 1, 1))

/-- deque(maxlen = m).append: the appended element goes to the right and
the list is truncated from the left to its last m elements. -/
def dequeAppend (m : ℕ) (dq : List (ℤ × ℤ)) (x : ℤ × ℤ) : List (ℤ × ℤ) :=
  (dq ++ [x]).drop ((dq ++ [x]).length - m)

/-- One iteration of the loop body of _recompute_betas: read
counts[route] (raising KeyError, i.e. none, when the route is not a key),
then add success to alpha and 1 - success to beta. -/
def stepCount (acc : Option (List (ℤ × ℤ × ℤ))) (p : ℤ × ℤ) :
    Option (List (ℤ × ℤ × ℤ)) :=
  match acc with
  | none => none
  | some counts =>
      match lookupRoute counts p.1 with
      | none => none
      | some ab => some (setRoute counts p.1 (ab.1 + p.2, ab.2 + (1 - p.2)))

/-- _recompute_betas as a function of the configuration and the window:
start every route of the action space at (1,1) and fold the window through
the loop body; none models the KeyError raised on an out-of-range route. -/
def recompute_betas (rmin rmax : ℤ) (window : List (ℤ × ℤ)) :
    Option (List (ℤ × ℤ × ℤ)) :=
  window.foldl stepCount (some (initBetas rmin rmax))

/-- The engine state: configuration plus the two per-context dicts
route_history and beta_params. -/
structure Engine (K : Type) where
  route_min : ℤ
  route_max : ℤ
  tau : ℚ
  memory : ℤ
  route_history : K → Option (List (ℤ × ℤ))
  beta_params : K → Option (List (ℤ × ℤ × ℤ))

/-- validate_init_params: the three construction checks, in source order. -/
def validate_init_params (route_min route_max : ℤ) (tau : ℚ) (memory : ℤ) :
    Except String Unit :=
  if route_min ≥ route_max then .error "route_min must be less than route_max"
  else if tau ≤ 0 then .error "tau must be positive"
  else if memory < 1 then .error "memory must be at least 1"
  else .ok ()

/-- __init__: validate, then store the configuration with both
per-context dicts empty. -/
def construct (K : Type) (route_min route_max : ℤ) (tau : ℚ) (memory : ℤ) :
    Except String (Engine K) :=
  match validate_init_params route_min route_max tau memory with
  | .error e => .error e
  | .ok _ => .ok ⟨route_min, route_max, tau, memory, fun _ => none, fun _ => none⟩

/-- The lazy context creation shared verbatim by select_route and update:
an unseen context gets an empty window and the full Beta(1,1) mapping. -/
def ensureContext {K : Type} [DecidableEq K] (e : Engine K) (ctx : K) :
    Engine K :=
  match e.route_history ctx with
  | some _ => e
  | none =>
      { e with
        route_history := fun k => if k = ctx then some [] else e.route_history k,
        beta_params := fun k =>
          if k = ctx then some (initBetas e.route_min e.route_max)
          else e.beta_params k }

/-- update: ensure the context, append (route, success) to its window
(evicting on the left at capacity), then recompute the Beta parameters from
the new window.  The append is committed before the recomputation runs, so
when the recomputation raises the returned state keeps the appended window
while beta_params is left untouched — exactly the in-place mutation order
of the source. -/
def update {K : Type} [DecidableEq K] (e : Engine K) (ctx : K)
    (route success : ℤ) : Engine K × Except String Unit :=
  let e1 := ensureContext e ctx
  let w2 := dequeAppend e1.memory.toNat ((e1.route_history ctx).getD []) (route, success)
  let e2 := { e1 with
    route_history := fun k => if k = ctx then some w2 else e1.route_history k }
  match recompute_betas e2.route_min e2.route_max w2 with
  | none => (e2, .error "KeyError: route not in counts")
  | some counts =>
      ({ e2 with
         beta_params := fun k =>
           if k = ctx then some counts else e2.beta_params k },
       .ok ())

/-- select_route: ensure the context, then return one key of the context's
Beta-parameter dict.  The Beta sampling and the softmax-weighted
np.random.choice are abstracted by the index i: every softmax weight is
strictly positive, so the possible return values are exactly the keys. -/
def select_route {K : Type} [DecidableEq K] (e : Engine K) (ctx : K)
    (i : ℕ) : Engine K × ℤ :=
  let e1 := ensureContext e ctx
  let keys := ((e1.beta_params ctx).getD []).map Prod.fst
  (e1, keys.getD (i % keys.length) e1.route_min)

/-- get_route_stats: a pure read of beta_params with the empty dict as
default; no context creation. -/
def get_route_stats {K : Type} (e : Engine K) (ctx : K) : List (ℤ × ℤ × ℤ) :=
  (e.beta_params ctx).getD []

/-- A sequence of update calls for one context, keeping the state of each
call whether or not it reported an error (Python mutates in place). -/
def runUpdates {K : Type} [DecidableEq K] (e : Engine K) (ctx : K)
    (obs : List (ℤ × ℤ)) : Engine K :=
  obs.foldl (fun acc p => (update acc ctx p.1 p.2).1) e

/-- The fixed action space of the engine: the integers of
range(route_min, route_max + 1). -/
def action_space {K : Type} (e : Engine K) : List ℤ :=
  rangeRoutes e.route_min ((e.route_max + 1 - e.route_min).toNat)

/-- The configuration facts guaranteed by construction validation. -/
def Engine.WF {K : Type} (e : Engine K) : Prop :=
  e.route_min < e.route_max ∧ 0 < e.tau ∧ 1 ≤ e.memory

/-- The reachable-state invariant: a context is in route_history exactly
when it is in beta_params, and every stored Beta-parameter dict has exactly
the action space as its key list. -/
def Engine.Inv {K : Type} (e : Engine K) : Prop :=
  e.WF ∧ ∀ ctx : K,
    ((e.route_history ctx).isSome = (e.beta_params ctx).isSome) ∧
    ∀ bp, e.beta_params ctx = some bp → bp.map Prod.fst = action_space e

/-- Number of occurrences of the pair (a, o) in a window. -/
def countPair (w : List (ℤ × ℤ)) (a o : ℤ) : ℤ :=
  ((w.filter (fun p => decide (p.1 = a ∧ p.2 = o))).length : ℤ)

/-- Sum of the outcomes recorded for route a in a window (the total added
to alpha by the recomputation loop). -/
def winAlpha (w : List (ℤ × ℤ)) (a : ℤ) : ℤ :=
  ((w.filter (fun p => decide (p.1 = a))).map (fun p => p.2)).sum

/-- Sum of 1 - outcome over the entries for route a in a window (the total
added to beta by the recomputation loop). -/
def winBeta (w : List (ℤ × ℤ)) (a : ℤ) : ℤ :=
  ((w.filter (fun p => decide (p.1 = a))).map (fun p => 1 - p.2)).sum

/-- The softmax method over ℝ: divide by tau, subtract the maximum,
exponentiate, normalize. -/
noncomputable def softmax (tau : ℝ) (values : List ℝ) : List ℝ :=
  match values with
  | [] => []
  | v :: vs =>
      let scaled := (v :: vs).map (fun x => x / tau)
      let m := scaled.foldl max (v / tau)
      let probs := scaled.map (fun x => Real.exp (x - m))
      probs.map (fun p => p / probs.sum)

/-- The exponentiate-and-normalize core of softmax, written as a function of
the scaled vector and the subtracted maximum; softmax on a nonempty list is
definitionally softmaxCore of its scaled values and their maximum. -/
noncomputable def softmaxCore (scaled : List ℝ) (m : ℝ) : List ℝ :=
  (scaled.map (fun x => Real.exp (x - m))).map
    (fun p => p / (scaled.map (fun x => Real.exp (x - m))).sum)

/-- A concrete engine instance (route space 1..3, tau = 1, memory = 2) used
to evaluate the theorems on explicit inputs. -/
def sampleEngine : Engine (ℕ × ℕ) :=
  ⟨1, 3, 1, 2, fun _ => none, fun _ => none⟩

/-- A concrete engine instance with memory 3, used to evaluate theorems on
explicit inputs. -/
def sampleEngine3 : Engine (ℕ × ℕ) :=
  ⟨1, 3, 1, 3, fun _ => none, fun _ => none⟩

/-! ### Association-list lemmas -/

theorem lookupRoute_map_key {α : Type} (f : ℤ → α) (l : List ℤ) (x : ℤ) :
    lookupRoute (l.map (fun r => (r, f r))) x =
      if x ∈ l then some (f x) else none := by
  induction l with
  | nil => simp [lookupRoute]
  | cons a rest ih =>
      by_cases hax : a = x
      · subst hax
        simp [lookupRoute]
      · simp [lookupRoute, hax, ih, Ne.symm hax]

theorem mem_rangeRoutes (n : ℕ) (a r : ℤ) :
    r ∈ rangeRoutes a n ↔ a ≤ r ∧ r < a + n := by
  induction n generalizing a with
  | zero =>
      simp only [rangeRoutes, List.not_mem_nil, false_iff]
      push_cast
      omega
  | succ n ih =>
      simp only [rangeRoutes, List.mem_cons, ih]
      push_cast
      omega

theorem keys_initBetas (rmin rmax : ℤ) :
    (initBetas rmin rmax).map Prod.fst =
      rangeRoutes rmin ((rmax + 1 - rmin).toNat) := by
  simp [initBetas, List.map_map, Function.comp_def]

theorem lookupRoute_initBetas (rmin rmax r : ℤ) :
    lookupRoute (initBetas rmin rmax) r =
      if r ∈ rangeRoutes rmin ((rmax + 1 - rmin).toNat) then some (1, 1)
      else none := by
  simpa [initBetas] using
    lookupRoute_map_key (fun _ => ((1 : ℤ), (1 : ℤ)))
      (rangeRoutes rmin ((rmax + 1 - rmin).toNat)) r

theorem setRoute_keys {α : Type} (l : List (ℤ × α)) (r : ℤ) (x : α) :
    (setRoute l r x).map Prod.fst = l.map Prod.fst := by
  induction l with
  | nil => simp [setRoute]
  | cons p rest ih =>
      obtain ⟨k, v⟩ := p
      by_cases hk : k = r
      · simp [setRoute, hk]
      · simp [setRoute, hk, ih]

theorem lookupRoute_setRoute_self {α : Type} (l : List (ℤ × α)) (r : ℤ) (x : α) :
    lookupRoute (setRoute l r x) r =
      if (lookupRoute l r).isSome then some x else none := by
  induction l with
  | nil => simp [setRoute, lookupRoute]
  | cons p rest ih =>
      obtain ⟨k, v⟩ := p
      by_cases hk : k = r
      · simp [setRoute, hk, lookupRoute]
      · simp [setRoute, hk, lookupRoute, ih]

theorem lookupRoute_setRoute_ne {α : Type} (l : List (ℤ × α)) (r x' : ℤ) (x : α)
    (h : x' ≠ r) : lookupRoute (setRoute l r x) x' = lookupRoute l x' := by
  induction l with
  | nil => simp [setRoute]
  | cons p rest ih =>
      obtain ⟨k, v⟩ := p
      by_cases hk : k = r
      · subst hk
        simp [setRoute, lookupRoute, Ne.symm h]
      · simp [setRoute, hk, lookupRoute, ih]

theorem lookupRoute_isSome_iff {α : Type} (l : List (ℤ × α)) (r : ℤ) :
    (lookupRoute l r).isSome ↔ r ∈ l.map Prod.fst := by
  induction l with
  | nil => simp [lookupRoute]
  | cons p rest ih =>
      obtain ⟨k, v⟩ := p
      by_cases hk : k = r
      · simp [lookupRoute, hk]
      · simp [lookupRoute, hk, ih, Ne.symm hk]

/-! ### Recomputation-fold lemmas -/

theorem foldl_stepCount_none (w : List (ℤ × ℤ)) :
    w.foldl stepCount none = none := by
  induction w with
  | nil => rfl
  | cons p rest ih => simpa [stepCount] using ih

theorem foldl_stepCount_keys (w : List (ℤ × ℤ)) :
    ∀ (counts counts' : List (ℤ × ℤ × ℤ)),
      w.foldl stepCount (some counts) = some counts' →
      counts'.map Prod.fst = counts.map Prod.fst := by
  induction w with
  | nil =>
      intro counts counts' h
      simp only [List.foldl_nil, Option.some.injEq] at h
      rw [h]
  | cons p rest ih =>
      intro counts counts' h
      simp only [List.foldl_cons, stepCount] at h
      cases hl : lookupRoute counts p.1 with
      | none =>
          rw [hl] at h
          rw [foldl_stepCount_none] at h
          exact absurd h (by simp)
      | some ab =>
          rw [hl] at h
          have := ih _ _ h
          rw [this, setRoute_keys]

theorem foldl_stepCount_isSome_iff (w : List (ℤ × ℤ)) :
    ∀ counts : List (ℤ × ℤ × ℤ),
      (w.foldl stepCount (some counts)).isSome ↔
        ∀ p ∈ w, p.1 ∈ counts.map Prod.fst := by
  induction w with
  | nil => intro counts; simp
  | cons p rest ih =>
      intro counts
      simp only [List.foldl_cons, stepCount]
      cases hl : lookupRoute counts p.1 with
      | none =>
          rw [foldl_stepCount_none]
          have hnot : p.1 ∉ counts.map Prod.fst := by
            rw [← lookupRoute_isSome_iff, hl]
            simp
          exact ⟨fun h => absurd h (by simp),
            fun hall => absurd (hall p (List.mem_cons_self p rest)) hnot⟩
      | some ab =>
          have hmem : p.1 ∈ counts.map Prod.fst := by
            rw [← lookupRoute_isSome_iff, hl]
            simp
          rw [ih]
          constructor
          · intro h q hq
            rcases List.mem_cons.1 hq with hq' | hq'
            · rw [hq']
              exact hmem
            · have := h q hq'
              rwa [setRoute_keys] at this
          · intro h q hq
            rw [setRoute_keys]
            exact h q (List.mem_cons_of_mem p hq)

theorem foldl_stepCount_lookup (w : List (ℤ × ℤ)) :
    ∀ (counts : List (ℤ × ℤ × ℤ)) (A a b : ℤ),
      (∀ p ∈ w, p.1 ∈ counts.map Prod.fst) →
      lookupRoute counts A = some (a, b) →
      ∃ counts', w.foldl stepCount (some counts) = some counts' ∧
        lookupRoute counts' A = some (a + winAlpha w A, b + winBeta w A) := by
  induction w with
  | nil =>
      intro counts A a b _ hA
      refine ⟨counts, rfl, ?_⟩
      simp [winAlpha, winBeta, hA]
  | cons p rest ih =>
      intro counts A a b hmem hA
      have hp : p.1 ∈ counts.map Prod.fst := hmem p (List.mem_cons_self p rest)
      obtain ⟨ab, hab⟩ := Option.isSome_iff_exists.1
        ((lookupRoute_isSome_iff counts p.1).2 hp)
      have hmem2 : ∀ q ∈ rest,
          q.1 ∈ (setRoute counts p.1 (ab.1 + p.2, ab.2 + (1 - p.2))).map Prod.fst := by
        intro q hq
        rw [setRoute_keys]
        exact hmem q (List.mem_cons_of_mem p hq)
      simp only [List.foldl_cons, stepCount, hab]
      by_cases hpa : p.1 = A
      · have hab' : ab = (a, b) := by
          rw [hpa, hA] at hab
          exact (Option.some.inj hab).symm
        have hlook2 : lookupRoute (setRoute counts p.1 (ab.1 + p.2, ab.2 + (1 - p.2))) A =
            some (a + p.2, b + (1 - p.2)) := by
          rw [hpa, lookupRoute_setRoute_self, hA, hab']
          simp
        obtain ⟨counts', hfold, hlook'⟩ :=
          ih _ A (a + p.2) (b + (1 - p.2)) hmem2 hlook2
        refine ⟨counts', hfold, ?_⟩
        rw [hlook']
        have hwa : winAlpha (p :: rest) A = p.2 + winAlpha rest A := by
          simp [winAlpha, List.filter_cons, hpa]
        have hwb : winBeta (p :: rest) A = (1 - p.2) + winBeta rest A := by
          simp [winBeta, List.filter_cons, hpa]
        rw [hwa, hwb]
        ring_nf
      · have hlook2 : lookupRoute (setRoute counts p.1 (ab.1 + p.2, ab.2 + (1 - p.2))) A =
            some (a, b) := by
          rw [lookupRoute_setRoute_ne _ _ _ _ (fun h => hpa h.symm), hA]
        obtain ⟨counts', hfold, hlook'⟩ := ih _ A a b hmem2 hlook2
        refine ⟨counts', hfold, ?_⟩
        rw [hlook']
        have hwa : winAlpha (p :: rest) A = winAlpha rest A := by
          simp [winAlpha, List.filter_cons, hpa]
        have hwb : winBeta (p :: rest) A = winBeta rest A := by
          simp [winBeta, List.filter_cons, hpa]
        rw [hwa, hwb]

theorem recompute_betas_keys (rmin rmax : ℤ) (w : List (ℤ × ℤ))
    (counts : List (ℤ × ℤ × ℤ)) (h : recompute_betas rmin rmax w = some counts) :
    counts.map Prod.fst = rangeRoutes rmin ((rmax + 1 - rmin).toNat) := by
  rw [foldl_stepCount_keys w _ _ h, keys_initBetas]

theorem recompute_betas_isSome_iff (rmin rmax : ℤ) (w : List (ℤ × ℤ)) :
    (recompute_betas rmin rmax w).isSome ↔
      ∀ p ∈ w, p.1 ∈ rangeRoutes rmin ((rmax + 1 - rmin).toNat) := by
  rw [recompute_betas, foldl_stepCount_isSome_iff, keys_initBetas]

theorem recompute_betas_lookup (rmin rmax : ℤ) (w : List (ℤ × ℤ))
    (hw : ∀ p ∈ w, p.1 ∈ rangeRoutes rmin ((rmax + 1 - rmin).toNat))
    (A : ℤ) (hA : A ∈ rangeRoutes rmin ((rmax + 1 - rmin).toNat)) :
    ∃ counts, recompute_betas rmin rmax w = some counts ∧
      lookupRoute counts A = some (1 + winAlpha w A, 1 + winBeta w A) := by
  have hinit : lookupRoute (initBetas rmin rmax) A = some (1, 1) := by
    rw [lookupRoute_initBetas]
    simp [hA]
  have hmem : ∀ p ∈ w, p.1 ∈ (initBetas rmin rmax).map Prod.fst := by
    intro p hp
    rw [keys_initBetas]
    exact hw p hp
  exact foldl_stepCount_lookup w (initBetas rmin rmax) A 1 1 hmem hinit

/-! ### Engine-level lemmas -/

variable {K : Type} [DecidableEq K]

omit [DecidableEq K] in
theorem construct_ok_elim (rmin rmax : ℤ) (tau : ℚ) (mem : ℤ) (e : Engine K)
    (h : construct K rmin rmax tau mem = .ok e) :
    e = ⟨rmin, rmax, tau, mem, fun _ => none, fun _ => none⟩ ∧
      rmin < rmax ∧ 0 < tau ∧ 1 ≤ mem := by
  unfold construct validate_init_params at h
  split_ifs at h with h1 h2 h3
  exact ⟨(Except.ok.inj h).symm, by omega, lt_of_not_le h2, by omega⟩

omit [DecidableEq K] in
theorem construct_error_iff (rmin rmax : ℤ) (tau : ℚ) (mem : ℤ) :
    (∃ msg, construct K rmin rmax tau mem = .error msg) ↔
      rmin ≥ rmax ∨ tau ≤ 0 ∨ mem < 1 := by
  unfold construct validate_init_params
  split_ifs with h1 h2 h3
  · exact ⟨fun _ => Or.inl h1, fun _ => ⟨_, rfl⟩⟩
  · exact ⟨fun _ => Or.inr (Or.inl h2), fun _ => ⟨_, rfl⟩⟩
  · exact ⟨fun _ => Or.inr (Or.inr h3), fun _ => ⟨_, rfl⟩⟩
  · constructor
    · rintro ⟨msg, hmsg⟩
      exact absurd hmsg (by simp)
    · rintro (h | h | h) <;> [exact absurd h h1; exact absurd h h2; exact absurd h h3]

theorem ensureContext_config (e : Engine K) (ctx : K) :
    (ensureContext e ctx).route_min = e.route_min ∧
    (ensureContext e ctx).route_max = e.route_max ∧
    (ensureContext e ctx).tau = e.tau ∧
    (ensureContext e ctx).memory = e.memory := by
  unfold ensureContext
  cases e.route_history ctx <;> exact ⟨rfl, rfl, rfl, rfl⟩

theorem ensureContext_history_getD (e : Engine K) (ctx : K) :
    ((ensureContext e ctx).route_history ctx).getD [] =
      (e.route_history ctx).getD [] := by
  unfold ensureContext
  cases h : e.route_history ctx <;> simp [h]

theorem ensureContext_beta (e : Engine K) (ctx : K) :
    (ensureContext e ctx).beta_params ctx =
      match e.route_history ctx with
      | some _ => e.beta_params ctx
      | none => some (initBetas e.route_min e.route_max) := by
  unfold ensureContext
  cases h : e.route_history ctx <;> simp [h]

theorem ensureContext_ne (e : Engine K) (ctx k : K) (h : k ≠ ctx) :
    (ensureContext e ctx).route_history k = e.route_history k ∧
    (ensureContext e ctx).beta_params k = e.beta_params k := by
  unfold ensureContext
  cases hh : e.route_history ctx <;> simp [h]

theorem update_config (e : Engine K) (ctx : K) (r s : ℤ) :
    (update e ctx r s).1.route_min = e.route_min ∧
    (update e ctx r s).1.route_max = e.route_max ∧
    (update e ctx r s).1.tau = e.tau ∧
    (update e ctx r s).1.memory = e.memory := by
  obtain ⟨h1, h2, h3, h4⟩ := ensureContext_config e ctx
  unfold update
  dsimp only
  split <;> exact ⟨h1, h2, h3, h4⟩

theorem update_history_ctx (e : Engine K) (ctx : K) (r s : ℤ) :
    (update e ctx r s).1.route_history ctx =
      some (dequeAppend e.memory.toNat ((e.route_history ctx).getD []) (r, s)) := by
  obtain ⟨-, -, -, h4⟩ := ensureContext_config e ctx
  have h5 := ensureContext_history_getD e ctx
  unfold update
  dsimp only
  split <;> simp [h4, h5]

theorem update_history_ne (e : Engine K) (ctx k : K) (r s : ℤ) (h : k ≠ ctx) :
    (update e ctx r s).1.route_history k = e.route_history k := by
  obtain ⟨he1, -⟩ := ensureContext_ne e ctx k h
  unfold update
  dsimp only
  split <;> simp [h, he1]

theorem update_beta_ne (e : Engine K) (ctx k : K) (r s : ℤ) (h : k ≠ ctx) :
    (update e ctx r s).1.beta_params k = e.beta_params k := by
  obtain ⟨-, he2⟩ := ensureContext_ne e ctx k h
  unfold update
  dsimp only
  split <;> simp [h, he2]

theorem update_of_rec_none (e : Engine K) (ctx : K) (r s : ℤ)
    (hrec : recompute_betas e.route_min e.route_max
      (dequeAppend e.memory.toNat ((e.route_history ctx).getD []) (r, s)) = none) :
    (update e ctx r s).1.beta_params = (ensureContext e ctx).beta_params ∧
      (update e ctx r s).2 = .error "KeyError: route not in counts" := by
  obtain ⟨h1, h2, -, h4⟩ := ensureContext_config e ctx
  have h5 := ensureContext_history_getD e ctx
  unfold update
  dsimp only
  rw [h1, h2, h4, h5, hrec]
  exact ⟨rfl, rfl⟩

theorem update_of_rec_some (e : Engine K) (ctx : K) (r s : ℤ)
    (counts : List (ℤ × ℤ × ℤ))
    (hrec : recompute_betas e.route_min e.route_max
      (dequeAppend e.memory.toNat ((e.route_history ctx).getD []) (r, s)) =
        some counts) :
    (update e ctx r s).1.beta_params ctx = some counts ∧
      (update e ctx r s).2 = .ok () := by
  obtain ⟨h1, h2, -, h4⟩ := ensureContext_config e ctx
  have h5 := ensureContext_history_getD e ctx
  unfold update
  dsimp only
  rw [h1, h2, h4, h5, hrec]
  simp

theorem update_isOk_iff (e : Engine K) (ctx : K) (r s : ℤ) :
    (update e ctx r s).2.isOk = true ↔
      ∀ p ∈ dequeAppend e.memory.toNat ((e.route_history ctx).getD []) (r, s),
        p.1 ∈ rangeRoutes e.route_min ((e.route_max + 1 - e.route_min).toNat) := by
  have hiff := recompute_betas_isSome_iff e.route_min e.route_max
    (dequeAppend e.memory.toNat ((e.route_history ctx).getD []) (r, s))
  cases hrec : recompute_betas e.route_min e.route_max
      (dequeAppend e.memory.toNat ((e.route_history ctx).getD []) (r, s)) with
  | none =>
      rw [hrec] at hiff
      rw [(update_of_rec_none e ctx r s hrec).2]
      simpa [Except.isOk, Except.toBool] using hiff
  | some counts =>
      rw [hrec] at hiff
      rw [(update_of_rec_some e ctx r s counts hrec).2]
      simpa [Except.isOk, Except.toBool] using hiff

theorem select_route_fst (e : Engine K) (ctx : K) (i : ℕ) :
    (select_route e ctx i).1 = ensureContext e ctx := rfl

/-! ### Sliding-window lemmas -/

theorem dequeAppend_length (m : ℕ) (dq : List (ℤ × ℤ)) (x : ℤ × ℤ) :
    (dequeAppend m dq x).length = min (dq.length + 1) m := by
  simp [dequeAppend]
  omega

theorem dequeAppend_eq_drop (m : ℕ) (dq : List (ℤ × ℤ)) (x : ℤ × ℤ) :
    dequeAppend m dq x = (dq ++ [x]).drop ((dq.length + 1) - m) := by
  simp [dequeAppend]

theorem drop_window_step (m k : ℕ) (l obs : List (ℤ × ℤ)) (hk : k = l.length - m) :
    ((l.drop k) ++ obs).drop ((((l.drop k) ++ obs).length) - m) =
      (l ++ obs).drop ((l ++ obs).length - m) := by
  subst hk
  rw [← List.drop_append_of_le_length (by omega : l.length - m ≤ l.length)]
  rw [List.drop_drop]
  congr 1
  simp only [List.length_append, List.length_drop]
  omega

theorem foldl_dequeAppend (m : ℕ) (obs : List (ℤ × ℤ)) :
    ∀ dq : List (ℤ × ℤ), dq.length ≤ m →
      obs.foldl (dequeAppend m) dq =
        (dq ++ obs).drop ((dq ++ obs).length - m) := by
  induction obs with
  | nil =>
      intro dq h
      simp only [List.foldl_nil, List.append_nil]
      rw [(by omega : dq.length - m = 0), List.drop_zero]
  | cons x obs ih =>
      intro dq h
      have hlen : (dequeAppend m dq x).length ≤ m := by
        rw [dequeAppend_length]
        omega
      rw [List.foldl_cons, ih _ hlen, dequeAppend_eq_drop]
      have hstep := drop_window_step m (dq.length + 1 - m) (dq ++ [x]) obs (by simp)
      rw [hstep]
      have hl : dq ++ [x] ++ obs = dq ++ x :: obs := by simp
      rw [hl]

theorem runUpdates_config (e : Engine K) (ctx : K) (obs : List (ℤ × ℤ)) :
    (runUpdates e ctx obs).route_min = e.route_min ∧
    (runUpdates e ctx obs).route_max = e.route_max ∧
    (runUpdates e ctx obs).tau = e.tau ∧
    (runUpdates e ctx obs).memory = e.memory := by
  induction obs generalizing e with
  | nil => exact ⟨rfl, rfl, rfl, rfl⟩
  | cons p obs ih =>
      obtain ⟨h1, h2, h3, h4⟩ := update_config e ctx p.1 p.2
      obtain ⟨g1, g2, g3, g4⟩ := ih (update e ctx p.1 p.2).1
      exact ⟨g1.trans h1, g2.trans h2, g3.trans h3, g4.trans h4⟩

theorem runUpdates_window_foldl (e : Engine K) (ctx : K) (obs : List (ℤ × ℤ)) :
    ((runUpdates e ctx obs).route_history ctx).getD [] =
      obs.foldl (dequeAppend e.memory.toNat) ((e.route_history ctx).getD []) := by
  induction obs generalizing e with
  | nil => rfl
  | cons p obs ih =>
      have hstep := update_history_ctx e ctx p.1 p.2
      have hmem := (update_config e ctx p.1 p.2).2.2.2
      calc ((runUpdates e ctx (p :: obs)).route_history ctx).getD []
          = obs.foldl (dequeAppend (update e ctx p.1 p.2).1.memory.toNat)
              (((update e ctx p.1 p.2).1.route_history ctx).getD []) :=
            ih (update e ctx p.1 p.2).1
        _ = obs.foldl (dequeAppend e.memory.toNat)
              (dequeAppend e.memory.toNat ((e.route_history ctx).getD []) (p.1, p.2)) := by
            rw [hmem, hstep]
            rfl
        _ = (p :: obs).foldl (dequeAppend e.memory.toNat)
              ((e.route_history ctx).getD []) := rfl

theorem runUpdates_window (e : Engine K) (ctx : K) (obs : List (ℤ × ℤ))
    (hlen : ((e.route_history ctx).getD []).length ≤ e.memory.toNat) :
    ((runUpdates e ctx obs).route_history ctx).getD [] =
      (((e.route_history ctx).getD []) ++ obs).drop
        ((((e.route_history ctx).getD []) ++ obs).length - e.memory.toNat) := by
  rw [runUpdates_window_foldl, foldl_dequeAppend _ _ _ hlen]

/-! ### Invariant lemmas -/

omit [DecidableEq K] in
theorem action_space_config {K2 : Type} (e : Engine K) (e2 : Engine K2)
    (h1 : e2.route_min = e.route_min) (h2 : e2.route_max = e.route_max) :
    action_space e2 = action_space e := by
  rw [action_space, action_space, h1, h2]

theorem rangeRoutes_length (a : ℤ) (n : ℕ) : (rangeRoutes a n).length = n := by
  induction n generalizing a with
  | zero => rfl
  | succ n ih => simp [rangeRoutes, ih]

omit [DecidableEq K] in
theorem construct_Inv (rmin rmax : ℤ) (tau : ℚ) (mem : ℤ) (e : Engine K)
    (h : construct K rmin rmax tau mem = .ok e) : e.Inv := by
  obtain ⟨he, h1, h2, h3⟩ := construct_ok_elim rmin rmax tau mem e h
  subst he
  refine ⟨⟨h1, h2, h3⟩, fun ctx => ⟨rfl, fun bp hbp => by simp at hbp⟩⟩

theorem ensureContext_history_ctx_isSome (e : Engine K) (ctx : K) :
    ((ensureContext e ctx).route_history ctx).isSome = true := by
  unfold ensureContext
  cases h : e.route_history ctx <;> simp [h]

theorem ensureContext_Inv (e : Engine K) (ctx : K) (h : e.Inv) :
    (ensureContext e ctx).Inv := by
  have hwf := h.1
  have hctx := h.2
  obtain ⟨c1, c2, c3, c4⟩ := ensureContext_config e ctx
  have hspace : action_space (ensureContext e ctx) = action_space e :=
    action_space_config e _ c1 c2
  refine ⟨⟨by rw [c1, c2]; exact hwf.1, by rw [c3]; exact hwf.2.1,
    by rw [c4]; exact hwf.2.2⟩, fun k => ?_⟩
  by_cases hk : k = ctx
  · subst hk
    have hbeta := ensureContext_beta e k
    cases hh : e.route_history k with
    | some w =>
        rw [hh] at hbeta
        have hrh : (ensureContext e k).route_history k = e.route_history k := by
          unfold ensureContext
          rw [hh]
          exact hh
        constructor
        · rw [hrh, hbeta]
          exact (hctx k).1
        · intro bp hbp
          rw [hbeta] at hbp
          rw [hspace]
          exact (hctx k).2 bp hbp
    | none =>
        rw [hh] at hbeta
        constructor
        · rw [ensureContext_history_ctx_isSome, hbeta]
          rfl
        · intro bp hbp
          rw [hbeta] at hbp
          rw [← Option.some.inj hbp, keys_initBetas, hspace]
          rfl
  · obtain ⟨he1, he2⟩ := ensureContext_ne e ctx k hk
    rw [he1, he2, hspace]
    exact hctx k

theorem update_Inv (e : Engine K) (ctx : K) (r s : ℤ) (h : e.Inv) :
    ((update e ctx r s).1).Inv := by
  have hwf := h.1
  obtain ⟨c1, c2, c3, c4⟩ := update_config e ctx r s
  have hspace : action_space (update e ctx r s).1 = action_space e :=
    action_space_config e _ c1 c2
  have hensure := ensureContext_Inv e ctx h
  have hespace : action_space (ensureContext e ctx) = action_space e :=
    action_space_config e _ (ensureContext_config e ctx).1
      (ensureContext_config e ctx).2.1
  refine ⟨⟨by rw [c1, c2]; exact hwf.1, by rw [c3]; exact hwf.2.1,
    by rw [c4]; exact hwf.2.2⟩, fun k => ?_⟩
  by_cases hk : k = ctx
  · subst hk
    constructor
    · rw [update_history_ctx]
      cases hrec : recompute_betas e.route_min e.route_max
          (dequeAppend e.memory.toNat ((e.route_history k).getD []) (r, s)) with
      | none =>
          rw [(update_of_rec_none e k r s hrec).1]
          have hsome := (hensure.2 k).1
          rw [ensureContext_history_ctx_isSome] at hsome
          rw [← hsome]
          rfl
      | some counts =>
          rw [(update_of_rec_some e k r s counts hrec).1]
          rfl
    · intro bp hbp
      cases hrec : recompute_betas e.route_min e.route_max
          (dequeAppend e.memory.toNat ((e.route_history k).getD []) (r, s)) with
      | none =>
          rw [(update_of_rec_none e k r s hrec).1] at hbp
          rw [hspace, ← hespace]
          exact (hensure.2 k).2 bp hbp
      | some counts =>
          rw [(update_of_rec_some e k r s counts hrec).1] at hbp
          have hkeys := recompute_betas_keys _ _ _ _ hrec
          rw [← Option.some.inj hbp, hspace]
          exact hkeys
  · rw [update_history_ne e ctx k r s hk, update_beta_ne e ctx k r s hk, hspace]
    exact h.2 k

omit [DecidableEq K] in
theorem mem_action_space_iff (e : Engine K) (hwf : e.WF) (r : ℤ) :
    r ∈ action_space e ↔ e.route_min ≤ r ∧ r ≤ e.route_max := by
  rw [action_space, mem_rangeRoutes]
  have : ((e.route_max + 1 - e.route_min).toNat : ℤ) = e.route_max + 1 - e.route_min := by
    have := hwf.1
    omega
  rw [this]
  omega

theorem select_route_in_range (e : Engine K) (ctx : K) (i : ℕ) (h : e.Inv) :
    e.route_min ≤ (select_route e ctx i).2 ∧
      (select_route e ctx i).2 ≤ e.route_max := by
  have hwf := h.1
  have hensure := ensureContext_Inv e ctx h
  have hsome := ensureContext_history_ctx_isSome e ctx
  rw [(hensure.2 ctx).1] at hsome
  obtain ⟨bp, hbp⟩ := Option.isSome_iff_exists.1 hsome
  have hkeys : bp.map Prod.fst = action_space e := by
    rw [(hensure.2 ctx).2 bp hbp]
    exact action_space_config e _ (ensureContext_config e ctx).1
      (ensureContext_config e ctx).2.1
  have hpos : 0 < (bp.map Prod.fst).length := by
    rw [hkeys, action_space, rangeRoutes_length]
    have := hwf.1
    omega
  have hval : (select_route e ctx i).2 =
      (bp.map Prod.fst).getD (i % (bp.map Prod.fst).length)
        (ensureContext e ctx).route_min := by
    unfold select_route
    dsimp only
    rw [hbp]
    rfl
  have hlt : i % (bp.map Prod.fst).length < (bp.map Prod.fst).length :=
    Nat.mod_lt _ hpos
  have hmem : (bp.map Prod.fst).getD (i % (bp.map Prod.fst).length)
      (ensureContext e ctx).route_min ∈ bp.map Prod.fst := by
    rw [List.getD_eq_getElem _ _ hlt]
    exact List.getElem_mem hlt
  rw [hval]
  refine (mem_action_space_iff e hwf _).1 ?_
  rw [← hkeys]
  exact hmem

/-! ### Softmax lemmas -/

omit [DecidableEq K] in
theorem le_foldl_max (l : List ℝ) : ∀ a : ℝ, a ≤ l.foldl max a := by
  induction l with
  | nil => intro a; exact le_refl a
  | cons x l ih =>
      intro a
      exact le_trans (le_max_left a x) (ih (max a x))

omit [DecidableEq K] in
theorem mem_le_foldl_max (l : List ℝ) (x : ℝ) (hx : x ∈ l) :
    ∀ a : ℝ, x ≤ l.foldl max a := by
  induction l with
  | nil => cases hx
  | cons y l ih =>
      intro a
      rcases List.mem_cons.1 hx with hxy | hmem
      · subst hxy
        exact le_trans (le_max_right a x) (le_foldl_max l (max a x))
      · exact ih hmem (max a y)

omit [DecidableEq K] in
theorem foldl_max_le (l : List ℝ) (b : ℝ) :
    ∀ a : ℝ, a ≤ b → (∀ x ∈ l, x ≤ b) → l.foldl max a ≤ b := by
  induction l with
  | nil => intro a ha _; exact ha
  | cons x l ih =>
      intro a ha hl
      exact ih (max a x) (max_le ha (hl x (List.mem_cons_self x l)))
        (fun y hy => hl y (List.mem_cons_of_mem x hy))

omit [DecidableEq K] in
theorem foldl_max_shift (l : List ℝ) (c : ℝ) :
    ∀ a : ℝ, (l.map (fun x => x + c)).foldl max (a + c) = l.foldl max a + c := by
  induction l with
  | nil => intro a; rfl
  | cons x l ih =>
      intro a
      simp only [List.map_cons, List.foldl_cons]
      rw [max_add_add_right]
      exact ih (max a x)

omit [DecidableEq K] in
theorem sum_map_div (l : List ℝ) (c : ℝ) :
    (l.map (fun x => x / c)).sum = l.sum / c := by
  induction l with
  | nil => simp
  | cons x l ih =>
      simp only [List.map_cons, List.sum_cons, ih]
      rw [add_div]

omit [DecidableEq K] in
theorem softmax_cons (tau v : ℝ) (vs : List ℝ) :
    softmax tau (v :: vs) =
      softmaxCore ((v :: vs).map (fun x => x / tau))
        (((v :: vs).map (fun x => x / tau)).foldl max (v / tau)) := rfl

omit [DecidableEq K] in
theorem exp_sum_pos (l : List ℝ) (m : ℝ) (h : l ≠ []) :
    0 < (l.map (fun x => Real.exp (x - m))).sum := by
  apply List.sum_pos
  · intro x hx
    obtain ⟨y, -, rfl⟩ := List.mem_map.1 hx
    exact Real.exp_pos _
  · simpa using h

omit [DecidableEq K] in
theorem softmax_length (tau : ℝ) (values : List ℝ) :
    (softmax tau values).length = values.length := by
  cases values with
  | nil => rfl
  | cons v vs =>
      rw [softmax_cons]
      simp [softmaxCore]

omit [DecidableEq K] in
theorem softmax_nonneg (tau : ℝ) (values : List ℝ) :
    ∀ p ∈ softmax tau values, 0 ≤ p := by
  cases values with
  | nil => intro p hp; cases hp
  | cons v vs =>
      rw [softmax_cons]
      intro p hp
      obtain ⟨q, hq, rfl⟩ := List.mem_map.1 hp
      obtain ⟨y, -, rfl⟩ := List.mem_map.1 hq
      exact div_nonneg (Real.exp_pos _).le
        (exp_sum_pos ((v :: vs).map (fun x => x / tau)) _ (by simp)).le

omit [DecidableEq K] in
theorem softmax_sum_one (tau : ℝ) (values : List ℝ) (h : values ≠ []) :
    (softmax tau values).sum = 1 := by
  cases values with
  | nil => exact absurd rfl h
  | cons v vs =>
      rw [softmax_cons, softmaxCore, sum_map_div]
      exact div_self (exp_sum_pos ((v :: vs).map (fun x => x / tau)) _ (by simp)).ne'

omit [DecidableEq K] in
theorem softmaxCore_shift (scaled : List ℝ) (d m : ℝ) :
    softmaxCore (scaled.map (fun x => x + d)) (m + d) = softmaxCore scaled m := by
  have hinner : (scaled.map (fun x => x + d)).map (fun x => Real.exp (x - (m + d))) =
      scaled.map (fun x => Real.exp (x - m)) := by
    rw [List.map_map]
    refine List.map_congr_left (fun x _ => ?_)
    simp only [Function.comp_apply]
    ring_nf
  unfold softmaxCore
  rw [hinner]

omit [DecidableEq K] in
theorem softmax_shift (tau c : ℝ) (values : List ℝ) :
    softmax tau (values.map (fun x => x + c)) = softmax tau values := by
  cases values with
  | nil => rfl
  | cons v vs =>
      have hmapcons : (v :: vs).map (fun x => x + c) = (v + c) :: vs.map (fun x => x + c) :=
        rfl
      rw [hmapcons, softmax_cons, softmax_cons]
      have hscaled : ((v + c) :: vs.map (fun x => x + c)).map (fun x => x / tau) =
          ((v :: vs).map (fun x => x / tau)).map (fun x => x + c / tau) := by
        simp only [List.map_cons, List.map_map]
        refine congrArg₂ List.cons (by ring) ?_
        refine List.map_congr_left (fun x _ => ?_)
        simp only [Function.comp_apply]
        ring
      rw [hscaled]
      have hdiv : (v + c) / tau = v / tau + c / tau := by ring
      rw [hdiv, foldl_max_shift]
      exact softmaxCore_shift ((v :: vs).map (fun x => x / tau)) (c / tau) _

omit [DecidableEq K] in
theorem sum_map_eq_finsetSum (l : List ℝ) (g : ℝ → ℝ) :
    (l.map g).sum = ∑ i : Fin l.length, g (l.get i) := by
  conv_lhs => rw [← List.ofFn_get l]
  rw [List.map_ofFn, List.sum_ofFn]
  rfl

omit [DecidableEq K] in
theorem softmax_getD_formula (tau : ℝ) (values : List ℝ) (j : ℕ)
    (hj : j < values.length) (htau : 0 < tau)
    (hmax : ∀ i : Fin values.length, values.get i ≤ values.get ⟨j, hj⟩) :
    (softmax tau values).getD j 0 =
      (∑ i : Fin values.length,
        Real.exp ((values.get i - values.get ⟨j, hj⟩) / tau))⁻¹ := by
  cases values with
  | nil => exact absurd hj (Nat.not_lt_zero j)
  | cons v vs =>
      have hm : ((v :: vs).map (fun x => x / tau)).foldl max (v / tau) =
          (v :: vs).get ⟨j, hj⟩ / tau := by
        apply le_antisymm
        · apply foldl_max_le
          · exact (div_le_div_iff_of_pos_right htau).2 (hmax ⟨0, Nat.succ_pos _⟩)
          · intro x hx
            obtain ⟨y, hy, rfl⟩ := List.mem_map.1 hx
            obtain ⟨i, rfl⟩ := List.mem_iff_get.1 hy
            exact (div_le_div_iff_of_pos_right htau).2 (hmax i)
        · apply mem_le_foldl_max
          exact List.mem_map.2 ⟨(v :: vs).get ⟨j, hj⟩, List.get_mem _ _ _, rfl⟩
      rw [softmax_cons, hm]
      have hprobs : ((v :: vs).map (fun x => x / tau)).map
            (fun x => Real.exp (x - (v :: vs).get ⟨j, hj⟩ / tau)) =
          (v :: vs).map (fun y => Real.exp ((y - (v :: vs).get ⟨j, hj⟩) / tau)) := by
        rw [List.map_map]
        refine List.map_congr_left (fun x _ => ?_)
        simp only [Function.comp_apply]
        rw [sub_div]
      rw [softmaxCore, hprobs]
      have hjlen : j < ((v :: vs).map
          (fun y => Real.exp ((y - (v :: vs).get ⟨j, hj⟩) / tau))).length := by
        simpa using hj
      have hjlen2 : j < (((v :: vs).map
          (fun y => Real.exp ((y - (v :: vs).get ⟨j, hj⟩) / tau))).map
            (fun p => p / ((v :: vs).map
              (fun y => Real.exp ((y - (v :: vs).get ⟨j, hj⟩) / tau))).sum)).length := by
        simpa using hj
      rw [List.getD_eq_getElem _ _ hjlen2, List.getElem_map, List.getElem_map]
      have hnum : (v :: vs)[j] = (v :: vs).get ⟨j, hj⟩ := rfl
      rw [hnum, sub_self, zero_div, Real.exp_zero]
      rw [sum_map_eq_finsetSum]
      rw [one_div]

omit [DecidableEq K] in
theorem expsum_pos (values : List ℝ) (j : ℕ) (hj : j < values.length) (t : ℝ) :
    0 < ∑ i : Fin values.length,
        Real.exp ((values.get i - values.get ⟨j, hj⟩) / t) :=
  Finset.sum_pos (fun _ _ => Real.exp_pos _) ⟨⟨j, hj⟩, Finset.mem_univ _⟩

omit [DecidableEq K] in
theorem expsum_mono (values : List ℝ) (j : ℕ) (hj : j < values.length)
    (hmax : ∀ i : Fin values.length, (i : ℕ) ≠ j →
      values.get i < values.get ⟨j, hj⟩)
    (h2 : 2 ≤ values.length) (t1 t2 : ℝ) (ht1 : 0 < t1) (ht12 : t1 < t2) :
    (∑ i : Fin values.length,
        Real.exp ((values.get i - values.get ⟨j, hj⟩) / t1)) <
      ∑ i : Fin values.length,
        Real.exp ((values.get i - values.get ⟨j, hj⟩) / t2) := by
  have ht2 : 0 < t2 := ht1.trans ht12
  apply Finset.sum_lt_sum
  · intro i _
    by_cases hij : (i : ℕ) = j
    · have hii : values.get i = values.get ⟨j, hj⟩ := by
        congr 1
        exact Fin.ext hij
      rw [hii, sub_self, zero_div, zero_div]
    · have hd : values.get i - values.get ⟨j, hj⟩ < 0 := sub_neg.2 (hmax i hij)
      apply Real.exp_le_exp.2
      rw [div_le_div_iff₀ ht1 ht2]
      exact mul_le_mul_of_nonpos_left ht12.le hd.le
  · have hex : ∃ i : Fin values.length, (i : ℕ) ≠ j := by
      by_cases hj0 : j = 0
      · exact ⟨⟨1, by omega⟩, by simp [hj0]⟩
      · exact ⟨⟨0, by omega⟩, by simpa using fun h => hj0 h.symm⟩
    obtain ⟨i0, hi0⟩ := hex
    refine ⟨i0, Finset.mem_univ _, ?_⟩
    have hd : values.get i0 - values.get ⟨j, hj⟩ < 0 := sub_neg.2 (hmax i0 hi0)
    apply Real.exp_lt_exp.2
    rw [div_lt_div_iff₀ ht1 ht2]
    exact mul_lt_mul_of_neg_left ht12 hd

omit [DecidableEq K] in
theorem expsum_tendsto (values : List ℝ) (j : ℕ) (hj : j < values.length)
    (hmax : ∀ i : Fin values.length, (i : ℕ) ≠ j →
      values.get i < values.get ⟨j, hj⟩) :
    Filter.Tendsto (fun t => ∑ i : Fin values.length,
        Real.exp ((values.get i - values.get ⟨j, hj⟩) / t))
      (nhdsWithin 0 (Set.Ioi 0)) (nhds 1) := by
  have hsum : Filter.Tendsto (fun t => ∑ i : Fin values.length,
        Real.exp ((values.get i - values.get ⟨j, hj⟩) / t))
      (nhdsWithin 0 (Set.Ioi 0))
      (nhds (∑ i : Fin values.length,
        if i = (⟨j, hj⟩ : Fin values.length) then (1 : ℝ) else 0)) := by
    apply tendsto_finset_sum
    intro i _
    by_cases hij : i = (⟨j, hj⟩ : Fin values.length)
    · have hconst : (fun t : ℝ =>
          Real.exp ((values.get i - values.get ⟨j, hj⟩) / t)) = fun _ => 1 := by
        funext t
        rw [hij, sub_self, zero_div, Real.exp_zero]
      rw [hconst, if_pos hij]
      exact tendsto_const_nhds
    · rw [if_neg hij]
      have hd : values.get i - values.get ⟨j, hj⟩ < 0 :=
        sub_neg.2 (hmax i (fun h => hij (Fin.ext h)))
      have h1 : Filter.Tendsto (fun t : ℝ => t⁻¹)
          (nhdsWithin 0 (Set.Ioi 0)) Filter.atTop := tendsto_inv_zero_atTop
      have h2 := h1.const_mul_atTop_of_neg hd
      have h3 : (fun t : ℝ =>
          Real.exp ((values.get i - values.get ⟨j, hj⟩) / t)) =
          Real.exp ∘ (fun t : ℝ => (values.get i - values.get ⟨j, hj⟩) * t⁻¹) := by
        funext t
        rw [Function.comp_apply, div_eq_mul_inv]
      rw [h3]
      exact Real.tendsto_exp_atBot.comp h2
  have hval : (∑ i : Fin values.length,
      if i = (⟨j, hj⟩ : Fin values.length) then (1 : ℝ) else 0) = 1 := by
    rw [Finset.sum_ite_eq']
    simp
  rw [hval] at hsum
  exact hsum

/-! ### Counting and failure-mode helper lemmas -/

omit [DecidableEq K] in
theorem winAlpha_eq_countPair (w : List (ℤ × ℤ)) (A : ℤ)
    (hw : ∀ p ∈ w, p.2 = 0 ∨ p.2 = 1) :
    winAlpha w A = countPair w A 1 ∧ winBeta w A = countPair w A 0 := by
  induction w with
  | nil => simp [winAlpha, winBeta, countPair]
  | cons p rest ih =>
      have hrest := ih (fun q hq => hw q (List.mem_cons_of_mem p hq))
      have hp2 := hw p (List.mem_cons_self p rest)
      by_cases hpa : p.1 = A <;>
        rcases hp2 with h2 | h2 <;>
        constructor <;>
        · simp [winAlpha, winBeta, countPair, List.filter_cons, hpa, h2] at hrest ⊢
          omega

omit [DecidableEq K] in
theorem mem_dequeAppend_last (m : ℕ) (hm : 1 ≤ m) (dq : List (ℤ × ℤ))
    (x : ℤ × ℤ) : x ∈ dequeAppend m dq x := by
  rw [dequeAppend_eq_drop]
  rw [List.drop_append_of_le_length (by omega : dq.length + 1 - m ≤ dq.length)]
  exact List.mem_append_right _ (List.mem_singleton_self x)

theorem update_fail_beta (e : Engine K) (ctx : K) (r s : ℤ)
    (hfail : (update e ctx r s).2.isOk = false) :
    (update e ctx r s).1.beta_params = (ensureContext e ctx).beta_params := by
  cases hrec : recompute_betas e.route_min e.route_max
      (dequeAppend e.memory.toNat ((e.route_history ctx).getD []) (r, s)) with
  | none => exact (update_of_rec_none e ctx r s hrec).1
  | some counts =>
      rw [(update_of_rec_some e ctx r s counts hrec).2] at hfail
      simp [Except.isOk, Except.toBool] at hfail

theorem update_beta_ctx_isSome (e : Engine K) (ctx : K) (r s : ℤ) (h : e.Inv) :
    ((update e ctx r s).1.beta_params ctx).isSome = true := by
  have hInvU := update_Inv e ctx r s h
  have h1 := (hInvU.2 ctx).1
  rw [update_history_ctx] at h1
  rw [← h1]
  rfl

theorem ensure_beta_ctx_isSome (e : Engine K) (ctx : K) (h : e.Inv) :
    ((ensureContext e ctx).beta_params ctx).isSome = true := by
  have hInvE := ensureContext_Inv e ctx h
  have h1 := (hInvE.2 ctx).1
  rw [ensureContext_history_ctx_isSome] at h1
  exact h1.symm

omit [DecidableEq K] in
theorem stats_keys_of_some (e : Engine K) (ctx : K) (h : e.Inv)
    (hsome : (e.beta_params ctx).isSome = true) :
    (get_route_stats e ctx).map Prod.fst = action_space e := by
  obtain ⟨bp, hbp⟩ := Option.isSome_iff_exists.1 hsome
  have := (h.2 ctx).2 bp hbp
  rw [get_route_stats, hbp]
  exact this

omit [DecidableEq K] in
theorem exists_concat_of_ne_nil (l : List (ℤ × ℤ)) (h : l ≠ []) :
    ∃ l2 a, l = l2 ++ [a] := by
  induction l using List.reverseRecOn with
  | nil => exact absurd rfl h
  | append_singleton l2 a _ => exact ⟨l2, a, rfl⟩

/-! ### Claim theorems -/

/-- C9: construct(route_min, route_max, tau, memory) fails with a configuration
error if and only if route_min ≥ route_max, tau ≤ 0, or memory < 1; on success
the engine's action space is exactly the integers in [route_min, route_max]
inclusive and no per-context state is allocated. -/
theorem C9_construct_validation {K2 : Type} (rmin rmax : ℤ) (tau : ℚ) (mem : ℤ) :
    ((∃ msg, construct K2 rmin rmax tau mem = .error msg) ↔
      rmin ≥ rmax ∨ tau ≤ 0 ∨ mem < 1) ∧
    ∀ e : Engine K2, construct K2 rmin rmax tau mem = .ok e →
      (∀ r : ℤ, r ∈ action_space e ↔ rmin ≤ r ∧ r ≤ rmax) ∧
      e.route_history = (fun _ => none) ∧ e.beta_params = (fun _ => none) := by
  refine ⟨construct_error_iff rmin rmax tau mem, fun e he => ?_⟩
  obtain ⟨hrec, h1, h2, h3⟩ := construct_ok_elim rmin rmax tau mem e he
  subst hrec
  refine ⟨fun r => ?_, rfl, rfl⟩
  exact mem_action_space_iff _ ⟨h1, h2, h3⟩ r

/-- C9 witness: construct(5,5,1,5) fails, construct(1,3,1,2) succeeds with
action space containing 2 and no per-context state. -/
theorem C9_construct_validation_witness :
    (∃ msg, construct (ℕ × ℕ) 5 5 1 5 = .error msg) ∧
    ((2 : ℤ) ∈ action_space sampleEngine ∧
      sampleEngine.route_history = (fun _ => none)) := by
  constructor
  · exact (C9_construct_validation 5 5 1 5).1.2 (Or.inl (le_refl 5))
  · have h := (@C9_construct_validation (ℕ × ℕ) 1 3 1 2).2 sampleEngine rfl
    exact ⟨(h.1 2).2 (by decide), h.2.1⟩

/-- C1: for every well-formed engine and every context, record_outcome with an
action outside [route_min, route_max] is reported back to the caller as an
error, for every outcome value. -/
theorem C1_invalid_action_rejected (e : Engine K) (hwf : e.WF) (ctx : K)
    (route success : ℤ)
    (hroute : route < e.route_min ∨ e.route_max < route) :
    ∃ msg, (update e ctx route success).2 = .error msg := by
  cases hE : (update e ctx route success).2 with
  | error msg => exact ⟨msg, rfl⟩
  | ok u =>
      exfalso
      have hok : (update e ctx route success).2.isOk = true := by
        rw [hE]
        rfl
      have hall := (update_isOk_iff e ctx route success).1 hok
      have hmem : (route, success) ∈ dequeAppend e.memory.toNat
          ((e.route_history ctx).getD []) (route, success) :=
        mem_dequeAppend_last e.memory.toNat (by have := hwf.2.2; omega) _ _
      have hin := hall (route, success) hmem
      rw [mem_rangeRoutes] at hin
      have := hwf.1
      omega

/-- C1 witness: recording outcome 1 for the out-of-range action 99 on the
sample engine reports an error. -/
theorem C1_invalid_action_rejected_witness :
    ∃ msg, (update sampleEngine (0, 0) 99 1).2 = .error msg :=
  C1_invalid_action_rejected sampleEngine
    ⟨by decide, by decide, by decide⟩ (0, 0) 99 1 (Or.inr (by decide))

/-- C2 counterexample: a record_outcome call that fails still mutates the
engine: the context's observation window differs from its pre-call value, so
the operation is not atomic. -/
theorem C2_counterexample :
    (update sampleEngine (0, 0) 99 1).2.isOk = false ∧
    (update sampleEngine (0, 0) 99 1).1.route_history (0, 0) ≠
      sampleEngine.route_history (0, 0) := by
  constructor
  · rfl
  · decide

/-- C2 amended: when record_outcome fails, every other context is untouched
and no Beta-parameter mapping changes beyond the lazy context initialization,
but the failed call does append the offending observation to the target
context's window (and creates the context if absent): the failure is not
atomic on the window. -/
theorem C2_amended_atomicity (e : Engine K) (ctx : K) (r s : ℤ)
    (hfail : (update e ctx r s).2.isOk = false) :
    (∀ k, k ≠ ctx → (update e ctx r s).1.route_history k = e.route_history k ∧
      (update e ctx r s).1.beta_params k = e.beta_params k) ∧
    (update e ctx r s).1.beta_params = (ensureContext e ctx).beta_params ∧
    (update e ctx r s).1.route_history ctx =
      some (dequeAppend e.memory.toNat ((e.route_history ctx).getD []) (r, s)) :=
  ⟨fun k hk => ⟨update_history_ne e ctx k r s hk, update_beta_ne e ctx k r s hk⟩,
    update_fail_beta e ctx r s hfail, update_history_ctx e ctx r s⟩

/-- C2 amended witness: the failing call on the sample engine keeps the
pre-call Beta parameters (modulo lazy initialization). -/
theorem C2_amended_atomicity_witness :
    (update sampleEngine (0, 0) 99 1).1.beta_params =
      (ensureContext sampleEngine (0, 0)).beta_params :=
  (C2_amended_atomicity sampleEngine (0, 0) 99 1 (by rfl)).2.1

/-- C6 counterexample: recording the outcome 2 (neither 0 nor 1) for the
in-range action 1 is accepted without error and drives that action's beta
parameter to 0, below the invariant lower bound 1. -/
theorem C6_counterexample :
    (update sampleEngine (0, 0) 1 2).2.isOk = true ∧
    lookupRoute (get_route_stats (update sampleEngine (0, 0) 1 2).1 (0, 0)) 1 =
      some (3, 0) := by
  constructor
  · rfl
  · rfl

/-- C6 amended: record_outcome performs no outcome validation: with an
in-range action, every integer outcome s is silently accepted (no error is
reported), and on a fresh context the action's Beta pair becomes
(1 + s, 2 - s), which is below the (alpha ≥ 1, beta ≥ 1) invariant whenever
s lies outside {0, 1}. -/
theorem C6_amended_outcome_accepted (e : Engine K) (ctx : K) (route s : ℤ)
    (hwf : e.WF) (hfresh : e.route_history ctx = none)
    (hroute : e.route_min ≤ route ∧ route ≤ e.route_max) :
    (update e ctx route s).2.isOk = true ∧
    lookupRoute (get_route_stats (update e ctx route s).1 ctx) route =
      some (1 + s, 2 - s) := by
  have hm : 1 ≤ e.memory.toNat := by
    have := hwf.2.2
    omega
  have hdq : (e.route_history ctx).getD [] = [] := by
    rw [hfresh]
    rfl
  have hw2 : dequeAppend e.memory.toNat ((e.route_history ctx).getD [])
      (route, s) = [(route, s)] := by
    rw [hdq, dequeAppend_eq_drop]
    simp [Nat.sub_eq_zero_of_le hm]
  have hAmem : route ∈ rangeRoutes e.route_min
      ((e.route_max + 1 - e.route_min).toNat) := by
    rw [mem_rangeRoutes]
    have := hwf.1
    omega
  obtain ⟨counts, hrec, hlook⟩ := recompute_betas_lookup e.route_min e.route_max
    [(route, s)] (by
      intro p hp
      rw [List.mem_singleton.1 hp]
      exact hAmem) route hAmem
  rw [← hw2] at hrec
  obtain ⟨hbeta, hok⟩ := update_of_rec_some e ctx route s counts hrec
  constructor
  · rw [hok]
    rfl
  · rw [get_route_stats, hbeta]
    rw [Option.getD_some, hlook]
    have ha : winAlpha [(route, s)] route = s := by
      simp [winAlpha]
    have hb : winBeta [(route, s)] route = 1 - s := by
      simp [winBeta]
    rw [ha, hb]
    refine congrArg some (Prod.ext rfl ?_)
    show (1 : ℤ) + (1 - s) = 2 - s
    ring

/-- C6 amended witness: outcome 2 on action 1 of the sample engine is
accepted and yields the Beta pair (3, 0). -/
theorem C6_amended_outcome_accepted_witness :
    (update sampleEngine (0, 0) 1 2).2.isOk = true ∧
    lookupRoute (get_route_stats (update sampleEngine (0, 0) 1 2).1 (0, 0)) 1 =
      some (1 + 2, 2 - 2) :=
  C6_amended_outcome_accepted sampleEngine (0, 0) 1 2
    ⟨by decide, by decide, by decide⟩ rfl ⟨by decide, by decide⟩

/-- C10 counterexample: after a failed out-of-range update, it is not true
that every subsequent record_outcome for the same context fails: with
memory = 2, two further valid updates evict the invalid entry from the
sliding window and the third call succeeds. -/
theorem C10_counterexample :
    (update sampleEngine (0, 0) 99 1).2.isOk = false ∧
    (update (update sampleEngine (0, 0) 99 1).1 (0, 0) 1 1).2.isOk = false ∧
    (update (update (update sampleEngine (0, 0) 99 1).1 (0, 0) 1 1).1
      (0, 0) 2 1).2.isOk = true := by
  refine ⟨rfl, rfl, rfl⟩

/-- C10 amended: an invalid (action, outcome) pair is appended to the window
before the recomputation fails and remains there; a record_outcome call for
the context succeeds exactly when every entry of the freshly appended window
is in range — so subsequent calls fail while the invalid entry is still in
the window and succeed again once the sliding window has evicted it.  While
calls fail, beta_params keeps its pre-failure value (up to lazy context
initialization) and select_action still succeeds with an in-range action. -/
theorem C10_invalid_entry_persistence (e : Engine K) (ctx : K) (r s : ℤ)
    (h : e.Inv) :
    ((update e ctx r s).2.isOk = true ↔
      ∀ p ∈ dequeAppend e.memory.toNat ((e.route_history ctx).getD []) (r, s),
        e.route_min ≤ p.1 ∧ p.1 ≤ e.route_max) ∧
    ((update e ctx r s).2.isOk = false →
      (update e ctx r s).1.beta_params = (ensureContext e ctx).beta_params) ∧
    (update e ctx r s).1.route_history ctx =
      some (dequeAppend e.memory.toNat ((e.route_history ctx).getD []) (r, s)) ∧
    ∀ i : ℕ, e.route_min ≤ (select_route (update e ctx r s).1 ctx i).2 ∧
      (select_route (update e ctx r s).1 ctx i).2 ≤ e.route_max := by
  have hwf := h.1
  refine ⟨?_, update_fail_beta e ctx r s, update_history_ctx e ctx r s, ?_⟩
  · rw [update_isOk_iff]
    constructor
    · intro hall p hp
      have := hall p hp
      rw [mem_rangeRoutes] at this
      have := hwf.1
      omega
    · intro hall p hp
      have := hall p hp
      rw [mem_rangeRoutes]
      have := hwf.1
      omega
  · intro i
    have hInvU := update_Inv e ctx r s h
    obtain ⟨c1, c2, -, -⟩ := update_config e ctx r s
    have := select_route_in_range (update e ctx r s).1 ctx i hInvU
    rw [c1, c2] at this
    exact this

/-- C10 amended witness: the failed update on the sample engine records the
invalid pair in the window, and select_route afterwards still returns an
in-range action. -/
theorem C10_invalid_entry_persistence_witness :
    (update sampleEngine (0, 0) 99 1).1.route_history (0, 0) =
      some (dequeAppend sampleEngine.memory.toNat
        ((sampleEngine.route_history (0, 0)).getD []) (99, 1)) ∧
    (1 : ℤ) ≤ (select_route (update sampleEngine (0, 0) 99 1).1 (0, 0) 0).2 := by
  have h := C10_invalid_entry_persistence sampleEngine (0, 0) 99 1
    (construct_Inv 1 3 1 2 sampleEngine rfl)
  exact ⟨h.2.2.1, (h.2.2.2 0).1⟩

/-- C4: starting from a freshly constructed engine, after any sequence of
record_outcome calls the context's window is exactly the most recent
min(n, memory) observations in arrival order (the last min(n, memory)
entries of the call sequence), and an append at capacity evicts exactly the
oldest entry (strict FIFO). -/
theorem C4_window_fifo (rmin rmax : ℤ) (tau : ℚ) (mem : ℤ) (e : Engine K)
    (hc : construct K rmin rmax tau mem = .ok e) (ctx : K)
    (obs : List (ℤ × ℤ)) :
    ((runUpdates e ctx obs).route_history ctx).getD [] =
      obs.drop (obs.length - e.memory.toNat) ∧
    ∀ (dq : List (ℤ × ℤ)) (x : ℤ × ℤ), dq.length = e.memory.toNat →
      dequeAppend e.memory.toNat dq x = dq.drop 1 ++ [x] := by
  obtain ⟨hrec, h1, h2, h3⟩ := construct_ok_elim rmin rmax tau mem e hc
  constructor
  · have hfresh : ((e.route_history ctx).getD []).length ≤ e.memory.toNat := by
      rw [hrec]
      simp
    have hw := runUpdates_window e ctx obs hfresh
    rw [hrec] at hw ⊢
    simpa using hw
  · intro dq x hdq
    have hm : 1 ≤ e.memory.toNat := by
      rw [hrec]
      simp
      omega
    rw [dequeAppend_eq_drop, hdq]
    rw [(by omega : e.memory.toNat + 1 - e.memory.toNat = 1)]
    rw [List.drop_append_of_le_length (by omega : 1 ≤ dq.length)]

/-- C4 witness: with memory 2, after the three updates (1,1), (1,0), (2,1)
the window holds exactly the last two observations in order. -/
theorem C4_window_fifo_witness :
    ((runUpdates sampleEngine (0, 0) [(1, 1), (1, 0), (2, 1)]).route_history
      (0, 0)).getD [] = [(1, 0), (2, 1)] :=
  (C4_window_fifo 1 3 1 2 sampleEngine rfl (0, 0)
    [(1, 1), (1, 0), (2, 1)]).1.trans (by rfl)

/-- C5: select_route always returns an integer in [route_min, route_max];
the action space is exactly that integer range; once a context has been
referenced by select_route or update, its get_route_stats key list is exactly
the action space, and this persists across any further select or update. -/
theorem C5_action_space_closure (e : Engine K) (h : e.Inv) (ctx : K) :
    (∀ i : ℕ, e.route_min ≤ (select_route e ctx i).2 ∧
      (select_route e ctx i).2 ≤ e.route_max) ∧
    (∀ R : ℤ, R ∈ action_space e ↔ e.route_min ≤ R ∧ R ≤ e.route_max) ∧
    (∀ i : ℕ, (get_route_stats (select_route e ctx i).1 ctx).map Prod.fst =
      action_space e) ∧
    (∀ r s : ℤ, (get_route_stats (update e ctx r s).1 ctx).map Prod.fst =
      action_space e) ∧
    (∀ (ctx2 : K) (i2 : ℕ),
      (get_route_stats e ctx).map Prod.fst = action_space e →
      (get_route_stats (select_route e ctx2 i2).1 ctx).map Prod.fst =
        action_space e) ∧
    (∀ (ctx2 : K) (r2 s2 : ℤ),
      (get_route_stats e ctx).map Prod.fst = action_space e →
      (get_route_stats (update e ctx2 r2 s2).1 ctx).map Prod.fst =
        action_space e) := by
  have hsel : ∀ (c : K) (i : ℕ),
      (get_route_stats (select_route e c i).1 c).map Prod.fst = action_space e := by
    intro c i
    rw [select_route_fst]
    have := stats_keys_of_some (ensureContext e c) c (ensureContext_Inv e c h)
      (ensure_beta_ctx_isSome e c h)
    rw [this]
    exact action_space_config e _ (ensureContext_config e c).1
      (ensureContext_config e c).2.1
  have hupd : ∀ (c : K) (r s : ℤ),
      (get_route_stats (update e c r s).1 c).map Prod.fst = action_space e := by
    intro c r s
    have := stats_keys_of_some (update e c r s).1 c (update_Inv e c r s h)
      (update_beta_ctx_isSome e c r s h)
    rw [this]
    exact action_space_config e _ (update_config e c r s).1
      (update_config e c r s).2.1
  refine ⟨fun i => select_route_in_range e ctx i h,
    fun R => mem_action_space_iff e h.1 R,
    fun i => hsel ctx i, fun r s => hupd ctx r s, ?_, ?_⟩
  · intro ctx2 i2 hstats
    by_cases hc2 : ctx = ctx2
    · subst hc2
      exact hsel ctx i2
    · rw [select_route_fst, get_route_stats,
        (ensureContext_ne e ctx2 ctx hc2).2]
      exact hstats
  · intro ctx2 r2 s2 hstats
    by_cases hc2 : ctx = ctx2
    · subst hc2
      exact hupd ctx r2 s2
    · rw [get_route_stats, update_beta_ne e ctx2 ctx r2 s2 hc2]
      exact hstats

/-- C5 witness: on the sample engine, select_route returns an action ≥ 1 and
after one update the stats keys are exactly the action space. -/
theorem C5_action_space_closure_witness :
    (1 : ℤ) ≤ (select_route sampleEngine (0, 0) 0).2 ∧
    (get_route_stats (update sampleEngine (0, 0) 1 1).1 (0, 0)).map Prod.fst =
      action_space sampleEngine := by
  have h := C5_action_space_closure sampleEngine
    (construct_Inv 1 3 1 2 sampleEngine rfl) (0, 0)
  exact ⟨(h.1 0).1, h.2.2.2.1 1 1⟩

/-- C3: starting from a freshly constructed engine, after any nonempty
sequence of record_outcome calls with in-range actions and outcomes in
{0, 1}, get_route_stats maps each in-range action A to the pair
(1 + number of (A,1) entries in the current window,
 1 + number of (A,0) entries in the current window). -/
theorem C3_beta_recomputation (rmin rmax : ℤ) (tau : ℚ) (mem : ℤ)
    (e : Engine K) (hc : construct K rmin rmax tau mem = .ok e) (ctx : K)
    (obs : List (ℤ × ℤ)) (hne : obs ≠ [])
    (hvalid : ∀ p ∈ obs, (rmin ≤ p.1 ∧ p.1 ≤ rmax) ∧ (p.2 = 0 ∨ p.2 = 1))
    (A : ℤ) (hA : rmin ≤ A ∧ A ≤ rmax) :
    lookupRoute (get_route_stats (runUpdates e ctx obs) ctx) A =
      some (1 + countPair (((runUpdates e ctx obs).route_history ctx).getD []) A 1,
        1 + countPair (((runUpdates e ctx obs).route_history ctx).getD []) A 0) := by
  obtain ⟨hrec, h1, h2, h3⟩ := construct_ok_elim rmin rmax tau mem e hc
  obtain ⟨obs0, p, hobs⟩ := exists_concat_of_ne_nil obs hne
  subst hobs
  set eP := runUpdates e ctx obs0 with heP
  have hsplit : runUpdates e ctx (obs0 ++ [p]) = (update eP ctx p.1 p.2).1 := by
    rw [runUpdates, List.foldl_append]
    rfl
  obtain ⟨hP1, hP2, -, hP4⟩ := runUpdates_config e ctx obs0
  have hw : ((runUpdates e ctx (obs0 ++ [p])).route_history ctx).getD [] =
      dequeAppend eP.memory.toNat ((eP.route_history ctx).getD []) (p.1, p.2) := by
    rw [hsplit, update_history_ctx]
    rfl
  have hwfull : ((runUpdates e ctx (obs0 ++ [p])).route_history ctx).getD [] =
      (obs0 ++ [p]).drop ((obs0 ++ [p]).length - e.memory.toNat) := by
    have hfresh : ((e.route_history ctx).getD []).length ≤ e.memory.toNat := by
      rw [hrec]
      simp
    have := runUpdates_window e ctx (obs0 ++ [p]) hfresh
    rw [hrec] at this ⊢
    simpa using this
  have hwin_sub : ∀ q ∈ ((runUpdates e ctx (obs0 ++ [p])).route_history ctx).getD [],
      q ∈ obs0 ++ [p] := by
    intro q hq
    rw [hwfull] at hq
    exact List.mem_of_mem_drop hq
  have hwin_range : ∀ q ∈ dequeAppend eP.memory.toNat
      ((eP.route_history ctx).getD []) (p.1, p.2),
      q.1 ∈ rangeRoutes eP.route_min ((eP.route_max + 1 - eP.route_min).toNat) := by
    intro q hq
    rw [← hw] at hq
    have hr := (hvalid q (hwin_sub q hq)).1
    rw [mem_rangeRoutes, hP1, hP2, hrec]
    simp only
    omega
  have hAmem : A ∈ rangeRoutes eP.route_min
      ((eP.route_max + 1 - eP.route_min).toNat) := by
    rw [mem_rangeRoutes, hP1, hP2, hrec]
    simp only
    omega
  obtain ⟨counts, hrc, hlook⟩ := recompute_betas_lookup eP.route_min eP.route_max
    (dequeAppend eP.memory.toNat ((eP.route_history ctx).getD []) (p.1, p.2))
    hwin_range A hAmem
  obtain ⟨hbeta, -⟩ := update_of_rec_some eP ctx p.1 p.2 counts hrc
  have hstats : get_route_stats (runUpdates e ctx (obs0 ++ [p])) ctx = counts := by
    rw [hsplit, get_route_stats, hbeta]
    rfl
  rw [hstats, hlook, ← hw]
  have houtcomes : ∀ q ∈ ((runUpdates e ctx (obs0 ++ [p])).route_history ctx).getD [],
      q.2 = 0 ∨ q.2 = 1 := fun q hq => (hvalid q (hwin_sub q hq)).2
  obtain ⟨ha, hb⟩ := winAlpha_eq_countPair
    (((runUpdates e ctx (obs0 ++ [p])).route_history ctx).getD []) A houtcomes
  rw [ha, hb]

/-- C3 witness: with memory 2 and updates (1,1), (1,0), (2,1), the window is
[(1,0), (2,1)] and action 1 has stats (1 + 0 successes, 1 + 1 failure). -/
theorem C3_beta_recomputation_witness :
    lookupRoute (get_route_stats
      (runUpdates sampleEngine (0, 0) [(1, 1), (1, 0), (2, 1)]) (0, 0)) 1 =
      some (1, 2) :=
  (C3_beta_recomputation 1 3 1 2 sampleEngine rfl (0, 0)
    [(1, 1), (1, 0), (2, 1)] (by simp) (by decide) 1 (by decide)).trans (by rfl)

/-- C7: for every nonempty real vector and every tau > 0, softmax returns a
vector of nonnegative entries summing to 1, and adding the same constant to
every input leaves the output unchanged (shift invariance, so the internal
max-subtraction does not change the distribution). -/
theorem C7_softmax_properties (values : List ℝ) (tau c : ℝ)
    (hne : values ≠ []) (_htau : 0 < tau) :
    (∀ p ∈ softmax tau values, 0 ≤ p) ∧
    (softmax tau values).sum = 1 ∧
    softmax tau (values.map (fun x => x + c)) = softmax tau values :=
  ⟨softmax_nonneg tau values, softmax_sum_one tau values hne,
    softmax_shift tau c values⟩

/-- C7 witness: softmax at tau = 1 on [0, 1] sums to 1 and is invariant under
adding 5 to both entries. -/
theorem C7_softmax_properties_witness :
    (softmax 1 [(0 : ℝ), 1]).sum = 1 ∧
    softmax 1 ([(0 : ℝ), 1].map (fun x => x + 5)) = softmax 1 [(0 : ℝ), 1] :=
  ⟨(C7_softmax_properties [(0 : ℝ), 1] 1 5 (by simp) one_pos).2.1,
    (C7_softmax_properties [(0 : ℝ), 1] 1 5 (by simp) one_pos).2.2⟩

/-- C8: when entry j is strictly greatest, the softmax probability of entry j
strictly increases as tau decreases (over tau > 0) and tends to 1 as
tau → 0 from the right. -/
theorem C8_temperature_monotonicity (values : List ℝ) (j : ℕ)
    (hj : j < values.length) (h2 : 2 ≤ values.length)
    (hmax : ∀ i : Fin values.length, (i : ℕ) ≠ j →
      values.get i < values.get ⟨j, hj⟩) :
    (∀ t1 t2 : ℝ, 0 < t1 → t1 < t2 →
      (softmax t2 values).getD j 0 < (softmax t1 values).getD j 0) ∧
    Filter.Tendsto (fun t => (softmax t values).getD j 0)
      (nhdsWithin 0 (Set.Ioi 0)) (nhds 1) := by
  have hle : ∀ i : Fin values.length, values.get i ≤ values.get ⟨j, hj⟩ := by
    intro i
    by_cases hij : (i : ℕ) = j
    · have : i = (⟨j, hj⟩ : Fin values.length) := Fin.ext hij
      rw [this]
    · exact (hmax i hij).le
  constructor
  · intro t1 t2 ht1 ht12
    have ht2 : 0 < t2 := ht1.trans ht12
    rw [softmax_getD_formula t1 values j hj ht1 hle,
      softmax_getD_formula t2 values j hj ht2 hle]
    exact inv_strictAnti₀ (expsum_pos values j hj t1)
      (expsum_mono values j hj hmax h2 t1 t2 ht1 ht12)
  · have hS := expsum_tendsto values j hj hmax
    have hSinv := hS.inv₀ one_ne_zero
    rw [inv_one] at hSinv
    refine Filter.Tendsto.congr' ?_ hSinv
    filter_upwards [eventually_mem_nhdsWithin] with t ht
    exact (softmax_getD_formula t values j hj ht hle).symm

/-- C8 witness: on the vector [0, 1] the probability of entry 1 at tau = 2 is
strictly below its value at tau = 1. -/
theorem C8_temperature_monotonicity_witness :
    (softmax 2 [(0 : ℝ), 1]).getD 1 0 < (softmax 1 [(0 : ℝ), 1]).getD 1 0 :=
  (C8_temperature_monotonicity [(0 : ℝ), 1] 1 (by decide) (by decide)
    (fun i hi => by
      fin_cases i
      · exact zero_lt_one
      · exact absurd rfl hi)).1 1 2 one_pos one_lt_two

end ForkliftRouteOptimizer
